import Mathlib

/-!
Verification development for the BOOKSLLM segmentation-and-translation
pipeline.  Text is modelled as `List Char` (a Python `str` is a sequence of
characters).  Pure fragments of the Python sources `src/new.py`,
`src/english.py` and `src/newtrans.py` are embedded as executable Lean
definitions; external effects (the Supabase store, the translation client,
`time.sleep`, `random.uniform`) are modelled by explicit state passing,
an outcome oracle, and an event trace.
-/

namespace BooksLLM

/-- Python whitespace characters recognised by `str.strip()` and the regex
class `\s` (ASCII core: space, tab, newline, carriage return, vertical tab,
form feed). -/
def isSpaceB (c : Char) : Bool :=
  c = ' ' || c = '\t' || c = '\n' || c = '\r' || c = '\x0b' || c = '\x0c'

/-- Model of Python `str.strip()`: drop leading whitespace, then drop
trailing whitespace (`List.rdropWhile p = reverse ∘ dropWhile p ∘ reverse`). -/
def pyStrip (l : List Char) : List Char :=
  (l.dropWhile isSpaceB).rdropWhile isSpaceB

/-- Model of Python `re.sub(r'\s+', ' ', text)`: every maximal run of
whitespace characters is replaced by a single space. -/
def collapseWS : List Char → List Char
  | [] => []
  | [c] => if isSpaceB c then [' '] else [c]
  | c :: d :: cs =>
      if isSpaceB c then
        (if isSpaceB d then collapseWS (d :: cs) else ' ' :: collapseWS (d :: cs))
      else c :: collapseWS (d :: cs)

/-- Model of the paragraph cleaning in `ShivPuranParser.parse_xml`
(src/new.py line 66): `re.sub(r'\s+', ' ', text).strip()`. -/
def normWS (l : List Char) : List Char :=
  pyStrip (collapseWS l)

/-- Model of Python `str.split('\n')`, used to undo the single-newline
separator that the chunk assembler inserts between paragraphs. -/
def splitNL : List Char → List (List Char)
  | [] => [[]]
  | c :: cs =>
      if c = '\n' then [] :: splitNL cs
      else
        match splitNL cs with
        | [] => [[c]]
        | h :: t => (c :: h) :: t

/-- Model of Python `' '.join(parts)`. -/
def joinSpace (parts : List (List Char)) : List Char :=
  List.intercalate [' '] parts

/-- A string whose first and last characters (when they exist) are
non-whitespace; `pyStrip` fixes exactly such strings. -/
def TrimmedEnds (l : List Char) : Prop :=
  l = [] ∨
    ((∃ c, l.head? = some c ∧ isSpaceB c = false) ∧
     (∃ d, l.getLast? = some d ∧ isSpaceB d = false))

/- ### Lemmas about the text utilities -/

theorem pyStrip_nil : pyStrip [] = [] := rfl

theorem pyStrip_sublist (l : List Char) : (pyStrip l).Sublist l := by
  have h1 : (pyStrip l).Sublist (l.dropWhile isSpaceB) :=
    (List.rdropWhile_prefix isSpaceB (l.dropWhile isSpaceB)).sublist
  exact h1.trans (List.dropWhile_suffix isSpaceB).sublist

theorem pyStrip_length_le (l : List Char) : (pyStrip l).length ≤ l.length :=
  (pyStrip_sublist l).length_le

theorem mem_of_mem_pyStrip {c : Char} {l : List Char} (h : c ∈ pyStrip l) : c ∈ l :=
  (pyStrip_sublist l).mem h

theorem pyStrip_eq_nil_iff {l : List Char} :
    pyStrip l = [] ↔ ∀ c ∈ l, isSpaceB c := by
  unfold pyStrip
  rw [List.rdropWhile_eq_nil_iff]
  constructor
  · intro h c hc
    rcases (List.takeWhile_append_dropWhile (p := isSpaceB) (l := l)) ▸ hc with hmem
    rcases List.mem_append.mp hmem with h1 | h2
    · exact List.mem_takeWhile_imp h1
    · exact h c h2
  · intro h c hc
    exact h c ((List.dropWhile_suffix isSpaceB).sublist.mem hc)

theorem pyStrip_head {l : List Char} {c : Char} {cs : List Char}
    (h : pyStrip l = c :: cs) : isSpaceB c = false := by
  have hpre : (pyStrip l) <+: l.dropWhile isSpaceB :=
    List.rdropWhile_prefix isSpaceB (l.dropWhile isSpaceB)
  rcases hpre with ⟨t, ht⟩
  rw [h] at ht
  have hne : l.dropWhile isSpaceB ≠ [] := by
    intro hnil; rw [hnil] at ht; simp at ht
  have h1 := List.head_dropWhile_not isSpaceB l hne
  have h2 : (l.dropWhile isSpaceB).head? = some c := by
    rw [← ht]; simp
  rw [List.head?_eq_head hne, Option.some.injEq] at h2
  rwa [h2] at h1

theorem pyStrip_last {l : List Char} {d : Char}
    (h : (pyStrip l).getLast? = some d) : isSpaceB d = false := by
  have hne : pyStrip l ≠ [] := by
    intro hnil; rw [hnil] at h; simp at h
  have hlast := List.rdropWhile_last_not isSpaceB (l.dropWhile isSpaceB) hne
  have hd : (pyStrip l).getLast hne = d := by
    rw [List.getLast?_eq_getLast _ hne, Option.some.injEq] at h
    exact h
  simp only [Bool.not_eq_true] at hlast
  exact hd ▸ hlast

theorem pyStrip_trimmedEnds (l : List Char) : TrimmedEnds (pyStrip l) := by
  cases h : pyStrip l with
  | nil => exact Or.inl rfl
  | cons c cs =>
      have hne : pyStrip l ≠ [] := by simp [h]
      have hlq := List.getLast?_eq_getLast (pyStrip l) hne
      right
      constructor
      · exact ⟨c, rfl, pyStrip_head h⟩
      · refine ⟨(pyStrip l).getLast hne, by rw [← h]; exact hlq, ?_⟩
        exact pyStrip_last hlq

theorem pyStrip_eq_self {l : List Char} (h : TrimmedEnds l) : pyStrip l = l := by
  rcases h with rfl | ⟨⟨c, hc, hcs⟩, ⟨d, hd, hds⟩⟩
  · rfl
  · have hne : l ≠ [] := by intro hnil; rw [hnil] at hc; simp at hc
    have h1 : l.dropWhile isSpaceB = l := by
      cases l with
      | nil => rfl
      | cons a as =>
          have : a = c := by simpa using hc
          subst this
          simp [List.dropWhile, hcs]
    unfold pyStrip
    rw [h1]
    rw [List.rdropWhile_eq_self_iff]
    intro hl
    have : l.getLast hl = d := by
      rwa [List.getLast?_eq_getLast _ hl, Option.some.injEq] at hd
    rw [this]
    simp [hds]

theorem pyStrip_idem (l : List Char) : pyStrip (pyStrip l) = pyStrip l :=
  pyStrip_eq_self (pyStrip_trimmedEnds l)

theorem trimmedEnds_append {a b : List Char} (ha : TrimmedEnds a)
    (hb : TrimmedEnds b) (hna : a ≠ []) (hnb : b ≠ []) :
    TrimmedEnds (a ++ '\n' :: b) := by
  rcases ha with rfl | ⟨⟨c, hc, hcs⟩, _⟩
  · exact absurd rfl hna
  rcases hb with rfl | ⟨_, ⟨d, hd, hds⟩⟩
  · exact absurd rfl hnb
  right
  constructor
  · exact ⟨c, by rw [List.head?_append_of_ne_nil _ hna]; exact hc, hcs⟩
  · refine ⟨d, ?_, hds⟩
    rw [List.getLast?_append_cons a '\n' b]
    have : ('\n' :: b) = ['\n'] ++ b := rfl
    rw [this, List.getLast?_append_of_ne_nil _ hnb]
    exact hd

theorem collapseWS_space_mem {l : List Char} {c : Char} (h : c ∈ collapseWS l)
    (hs : isSpaceB c = true) : c = ' ' := by
  induction l with
  | nil => simp [collapseWS] at h
  | cons a as ih =>
      cases as with
      | nil =>
          by_cases ha : isSpaceB a
          · simp [collapseWS, ha] at h; exact h
          · simp [collapseWS, ha] at h; subst h; rw [hs] at ha; simp at ha
      | cons d ds =>
          by_cases ha : isSpaceB a
          · by_cases hd : isSpaceB d
            · rw [collapseWS, if_pos ha, if_pos hd] at h
              exact ih h
            · rw [collapseWS, if_pos ha, if_neg hd] at h
              rcases List.mem_cons.mp h with h1 | h2
              · exact h1
              · exact ih h2
          · rw [collapseWS, if_neg ha] at h
            rcases List.mem_cons.mp h with h1 | h2
            · subst h1; rw [hs] at ha; simp at ha
            · exact ih h2

theorem collapseWS_head {l : List Char} {c : Char} (h : l.head? = some c)
    (hc : isSpaceB c = false) : (collapseWS l).head? = some c := by
  cases l with
  | nil => simp at h
  | cons a as =>
      have : a = c := by simpa using h
      subst this
      cases as with
      | nil => simp [collapseWS, hc]
      | cons d ds => simp [collapseWS, hc]

theorem mem_head?_self {l : List Char} {c : Char} (h : l.head? = some c) : c ∈ l := by
  cases l with
  | nil => simp at h
  | cons a as => simp at h; simp [h]

theorem pyStrip_ne_nil_of_head {l : List Char} {c : Char} (h : l.head? = some c)
    (hc : isSpaceB c = false) : pyStrip l ≠ [] := by
  intro hnil
  have := pyStrip_eq_nil_iff.mp hnil c (mem_head?_self h)
  rw [hc] at this
  exact Bool.false_ne_true this

theorem normWS_trimmedEnds (l : List Char) : TrimmedEnds (normWS l) :=
  pyStrip_trimmedEnds _

theorem normWS_no_newline (l : List Char) : '\n' ∉ normWS l := by
  intro hmem
  have h1 : '\n' ∈ collapseWS l := mem_of_mem_pyStrip hmem
  have h2 : ('\n' : Char) = ' ' := collapseWS_space_mem h1 (by decide)
  exact absurd h2 (by decide)

theorem normWS_ne_nil_of_head {l : List Char} {c : Char} (h : l.head? = some c)
    (hc : isSpaceB c = false) : normWS l ≠ [] :=
  pyStrip_ne_nil_of_head (collapseWS_head h hc) hc

/- ### Lemmas about `splitNL` -/

theorem splitNL_ne_nil (l : List Char) : splitNL l ≠ [] := by
  cases l with
  | nil => simp [splitNL]
  | cons c cs =>
      rw [splitNL]
      by_cases h : c = '\n'
      · simp [h]
      · rw [if_neg h]
        cases splitNL cs <;> simp

theorem splitNL_no_newline {l : List Char} (h : '\n' ∉ l) : splitNL l = [l] := by
  induction l with
  | nil => rfl
  | cons c cs ih =>
      have hc : ¬ c = '\n' := fun he => h (he ▸ List.mem_cons_self c cs)
      have hcs : '\n' ∉ cs := fun hm => h (List.mem_cons_of_mem c hm)
      rw [splitNL, if_neg hc, ih hcs]

theorem splitNL_append (a b : List Char) :
    splitNL (a ++ '\n' :: b) = splitNL a ++ splitNL b := by
  induction a with
  | nil => simp [splitNL]
  | cons c cs ih =>
      by_cases hc : c = '\n'
      · subst hc
        show splitNL ('\n' :: (cs ++ '\n' :: b)) = splitNL ('\n' :: cs) ++ splitNL b
        rw [splitNL, if_pos rfl, ih, splitNL, if_pos rfl]
        simp
      · show splitNL (c :: (cs ++ '\n' :: b)) = splitNL (c :: cs) ++ splitNL b
        have hne := splitNL_ne_nil cs
        cases hsp : splitNL cs with
        | nil => exact absurd hsp hne
        | cons h t =>
            rw [splitNL, if_neg hc, ih, hsp]
            rw [splitNL, if_neg hc, hsp]
            simp

/- ### ChunkAssembler: `ShivPuranParser.parse_xml` (src/new.py lines 35-97) -/

/-- A structural event of the source document: the parser walks the XML tree
in document order and reacts to heading elements (`h1`/`h2`/`h3`) and
paragraph elements (`p`).  A missing `elem.text` is modelled as `[]`
(the code substitutes `""`). -/
inductive DocEvent
  | heading (text : List Char)
  | paragraph (text : List Char)
  deriving DecidableEq

/-- A chunk row as built by `parse_xml` (the Python dict with keys
`chunk_id`, `section`, `content`, `char_count`; `sect` models the
`section` key, which is a Lean keyword). -/
structure Chunk where
  chunk_id : Nat
  sect : List Char
  content : List Char
  char_count : Nat
  deriving DecidableEq

/-- The loop state of `parse_xml`: accumulated `chunks`, the running
buffer `current_chunk`, the 1-based `chunk_id` counter, and the
`current_section` cursor. -/
structure AsmState where
  chunks : List Chunk
  current_chunk : List Char
  chunk_id : Nat
  current_section : List Char
  deriving DecidableEq

/-- Initial state of the `parse_xml` loop (src/new.py lines 45-47). -/
def asmInit : AsmState :=
  ⟨[], [], 1, "Introduction".toList⟩

/-- One iteration of the `parse_xml` element loop (src/new.py lines 50-83). -/
def asmStep (S : Nat) (st : AsmState) : DocEvent → AsmState
  | .heading t =>
      if pyStrip t = [] then st else { st with current_section := pyStrip t }
  | .paragraph t0 =>
      let t1 := pyStrip t0
      if t1 = [] then st
      else
        let text := normWS t1
        if S < st.current_chunk.length + text.length + 1 ∧ st.current_chunk ≠ [] then
          { chunks := st.chunks ++
              [⟨st.chunk_id, st.current_section, pyStrip st.current_chunk,
                (pyStrip st.current_chunk).length⟩],
            current_chunk := text,
            chunk_id := st.chunk_id + 1,
            current_section := st.current_section }
        else
          { st with current_chunk :=
              if st.current_chunk = [] then text
              else st.current_chunk ++ '\n' :: text }

/-- The trailing flush after the element loop (src/new.py lines 86-92). -/
def asmFinish (st : AsmState) : List Chunk :=
  if pyStrip st.current_chunk = [] then st.chunks
  else st.chunks ++
    [⟨st.chunk_id, st.current_section, pyStrip st.current_chunk,
      (pyStrip st.current_chunk).length⟩]

/-- The chunk list produced by `parse_xml` before its statistics lines. -/
def assembleChunks (events : List DocEvent) (S : Nat) : List Chunk :=
  asmFinish (events.foldl (asmStep S) asmInit)

/-- The normalized paragraph that one event contributes, if any:
headings contribute nothing, a paragraph is skipped when its stripped text
is empty, otherwise it contributes its whitespace-normalized text. -/
def paraOut : DocEvent → Option (List Char)
  | .heading _ => none
  | .paragraph t0 => if pyStrip t0 = [] then none else some (normWS (pyStrip t0))

/-- The ordered stream of normalized non-empty paragraphs of a document. -/
def paras (events : List DocEvent) : List (List Char) :=
  events.filterMap paraOut

/-- Failure mode of `parse_xml` after assembly: the average-chunk-size
statistic `sum(...) / len(chunks)` (src/new.py line 95) raises
`ZeroDivisionError` when no chunk was produced. -/
inductive ParseAbort
  | zeroDivisionAvg
  deriving DecidableEq

/-- Model of `parse_xml` including its statistics step: it returns the
chunk list unless the average-size computation divides by zero. -/
def parseXml (events : List DocEvent) (S : Nat) : Except ParseAbort (List Chunk) :=
  let chunks := assembleChunks events S
  if chunks = [] then .error .zeroDivisionAvg else .ok chunks

/- ### Assembler invariant -/

/-- Invariant of the `parse_xml` loop relative to the paragraphs `ps`
processed so far: every sealed chunk has a consistent `char_count`,
non-empty content, and is within budget unless it is a single oversized
paragraph; the buffer is trimmed and within budget or a single paragraph;
and the chunks plus the buffer exactly cover `ps`. -/
def AsmInv (S : Nat) (ps : List (List Char)) (st : AsmState) : Prop :=
  (∀ c ∈ st.chunks,
      c.char_count = c.content.length ∧ c.content ≠ [] ∧
      (c.char_count ≤ S ∨ c.content ∈ ps)) ∧
  (st.current_chunk = [] ∨
    (TrimmedEnds st.current_chunk ∧
      (st.current_chunk.length ≤ S ∨ st.current_chunk ∈ ps))) ∧
  (st.chunks.map fun c => splitNL c.content).flatten ++
      (if st.current_chunk = [] then [] else splitNL st.current_chunk) = ps

theorem paraOut_spec {e : DocEvent} {p : List Char} (h : paraOut e = some p) :
    p ≠ [] ∧ TrimmedEnds p ∧ '\n' ∉ p := by
  cases e with
  | heading t => simp [paraOut] at h
  | paragraph t0 =>
      by_cases h1 : pyStrip t0 = []
      · simp [paraOut, h1] at h
      · rw [paraOut, if_neg h1] at h
        have hp : p = normWS (pyStrip t0) := by simpa using h.symm
        subst hp
        refine ⟨?_, normWS_trimmedEnds _, normWS_no_newline _⟩
        rcases pyStrip_trimmedEnds t0 with hnil | ⟨⟨c, hc, hcs⟩, _⟩
        · exact absurd hnil h1
        · exact normWS_ne_nil_of_head hc hcs

theorem asmStep_inv {S : Nat} {ps : List (List Char)} {st : AsmState}
    (hinv : AsmInv S ps st) (e : DocEvent) :
    AsmInv S (ps ++ (paraOut e).toList) (asmStep S st e) := by
  obtain ⟨hchunks, hcur, hcover⟩ := hinv
  cases e with
  | heading t =>
      have : paraOut (DocEvent.heading t) = none := rfl
      rw [this]
      by_cases h : pyStrip t = [] <;>
        simp only [asmStep, h, if_pos, if_neg, Option.toList_none, List.append_nil] <;>
        exact ⟨hchunks, hcur, hcover⟩
  | paragraph t0 =>
      by_cases h1 : pyStrip t0 = []
      · have hpo : paraOut (DocEvent.paragraph t0) = none := by
          simp [paraOut, h1]
        rw [hpo]
        simp only [asmStep, h1, if_pos, Option.toList_none, List.append_nil]
        exact ⟨hchunks, hcur, hcover⟩
      · have hpo : paraOut (DocEvent.paragraph t0) = some (normWS (pyStrip t0)) := by
          simp [paraOut, h1]
        rw [hpo]
        obtain ⟨htne, httrim, htnl⟩ := paraOut_spec hpo
        set text := normWS (pyStrip t0) with htext
        have hmem_mono : ∀ (x : List Char), x ∈ ps → x ∈ ps ++ [text] :=
          fun x hx => List.mem_append_left _ hx
        have hchunks' : ∀ c ∈ st.chunks,
            c.char_count = c.content.length ∧ c.content ≠ [] ∧
            (c.char_count ≤ S ∨ c.content ∈ ps ++ [text]) := by
          intro c hc
          obtain ⟨ha, hb, hc'⟩ := hchunks c hc
          exact ⟨ha, hb, hc'.imp id (hmem_mono _)⟩
        show AsmInv S (ps ++ [text]) _
        rw [asmStep, if_neg h1]
        by_cases hseal : S < st.current_chunk.length + text.length + 1 ∧
            st.current_chunk ≠ []
        · rw [if_pos hseal]
          obtain ⟨hbig, hne⟩ := hseal
          rcases hcur with hnil | ⟨htrim, hlen⟩
          · exact absurd hnil hne
          have hstrip : pyStrip st.current_chunk = st.current_chunk :=
            pyStrip_eq_self htrim
          refine ⟨?_, ?_, ?_⟩
          · intro c hc
            rcases List.mem_append.mp hc with hold | hnew
            · exact hchunks' c hold
            · have hc' : c = ⟨st.chunk_id, st.current_section,
                  pyStrip st.current_chunk, (pyStrip st.current_chunk).length⟩ := by
                simpa using hnew
              subst hc'
              refine ⟨rfl, by rw [hstrip]; exact hne, ?_⟩
              rw [hstrip]
              exact hlen.imp id (hmem_mono _)
          · right
            exact ⟨httrim, Or.inr (List.mem_append_right _ (by simp))⟩
          · simp only [List.map_append, List.map_cons, List.map_nil,
              List.flatten_append]
            rw [hstrip]
            rw [if_neg htne]
            rw [splitNL_no_newline htnl]
            rw [if_neg hne] at hcover
            simp only [List.flatten_cons, List.flatten_nil, List.append_nil]
            rw [← hcover]
        · rw [if_neg hseal]
          by_cases hnil : st.current_chunk = []
          · refine ⟨hchunks', ?_, ?_⟩
            · rw [if_pos hnil]
              right
              exact ⟨httrim, Or.inr (List.mem_append_right _ (by simp))⟩
            · rw [if_pos hnil]
              rw [hnil, if_pos rfl, List.append_nil] at hcover
              rw [if_neg htne, splitNL_no_newline htnl, ← hcover]
          · refine ⟨hchunks', ?_, ?_⟩
            · rw [if_neg hnil]
              right
              rcases hcur with h | ⟨htrim, hlen⟩
              · exact absurd h hnil
              constructor
              · exact trimmedEnds_append htrim httrim hnil htne
              · left
                have hle : st.current_chunk.length + text.length + 1 ≤ S := by
                  rcases Nat.lt_or_ge S (st.current_chunk.length + text.length + 1)
                    with hlt | hge
                  · exact absurd ⟨hlt, hnil⟩ hseal
                  · exact hge
                simp only [List.length_append, List.length_cons, ← htext]
                omega
            · rw [if_neg hnil]
              have hne2 : st.current_chunk ++ '\n' :: text ≠ [] := by simp
              rw [if_neg hne2, splitNL_append, splitNL_no_newline htnl]
              rw [if_neg hnil] at hcover
              rw [← hcover]
              simp

theorem asmFoldl_inv (S : Nat) (events : List DocEvent) :
    ∀ (ps : List (List Char)) (st : AsmState), AsmInv S ps st →
      AsmInv S (ps ++ paras events) (events.foldl (asmStep S) st) := by
  induction events with
  | nil => intro ps st h; simpa [paras] using h
  | cons e es ih =>
      intro ps st h
      have h1 := asmStep_inv h e
      have h2 := ih _ _ h1
      have : paras (e :: es) = (paraOut e).toList ++ paras es := by
        cases hp : paraOut e <;> simp [paras, List.filterMap_cons, hp]
      rw [this, List.foldl_cons, ← List.append_assoc]
      exact h2

theorem asmInit_inv (S : Nat) : AsmInv S [] asmInit := by
  refine ⟨?_, Or.inl rfl, ?_⟩
  · intro c hc; simp [asmInit] at hc
  · simp [asmInit]

theorem assembleChunks_inv (events : List DocEvent) (S : Nat) :
    (∀ c ∈ assembleChunks events S,
        c.char_count = c.content.length ∧ c.content ≠ [] ∧
        (c.char_count ≤ S ∨ c.content ∈ paras events)) ∧
    ((assembleChunks events S).map fun c => splitNL c.content).flatten =
      paras events := by
  have hinv := asmFoldl_inv S events [] asmInit (asmInit_inv S)
  rw [List.nil_append] at hinv
  obtain ⟨hchunks, hcur, hcover⟩ := hinv
  set st := events.foldl (asmStep S) asmInit with hst
  unfold assembleChunks asmFinish
  rw [← hst]
  by_cases h : pyStrip st.current_chunk = []
  · rw [if_pos h]
    have hcnil : st.current_chunk = [] := by
      rcases hcur with hnil | ⟨htrim, _⟩
      · exact hnil
      · rwa [pyStrip_eq_self htrim] at h
    rw [if_pos hcnil, List.append_nil] at hcover
    exact ⟨hchunks, hcover⟩
  · rw [if_neg h]
    have hcne : st.current_chunk ≠ [] := by
      intro hnil; rw [hnil] at h; exact h pyStrip_nil
    rcases hcur with hnil | ⟨htrim, hlen⟩
    · exact absurd hnil hcne
    have hstrip : pyStrip st.current_chunk = st.current_chunk :=
      pyStrip_eq_self htrim
    constructor
    · intro c hc
      rcases List.mem_append.mp hc with hold | hnew
      · exact hchunks c hold
      · have hc' : c = ⟨st.chunk_id, st.current_section,
            pyStrip st.current_chunk, (pyStrip st.current_chunk).length⟩ := by
          simpa using hnew
        subst hc'
        rw [hstrip]
        exact ⟨rfl, hcne, hlen⟩
    · rw [if_neg hcne] at hcover
      rw [hstrip] at *
      simp only [List.map_append, List.map_cons, List.map_nil, List.flatten_append,
        List.flatten_cons, List.flatten_nil, List.append_nil]
      exact hcover

/-- All paragraph events of the document have empty or whitespace-only
text. -/
def allParasBlank (events : List DocEvent) : Bool :=
  events.all fun e =>
    match e with
    | .heading _ => true
    | .paragraph t => (pyStrip t).isEmpty

theorem paras_nil_of_blank {events : List DocEvent}
    (h : allParasBlank events = true) : paras events = [] := by
  rw [paras, List.filterMap_eq_nil_iff]
  intro e he
  have := List.all_eq_true.mp h e he
  cases e with
  | heading t => rfl
  | paragraph t =>
      have hnil : pyStrip t = [] := by
        simpa [List.isEmpty_iff] using this
      simp [paraOut, hnil]

/-- C4: Budget respect — every assembled chunk has `char_count` consistent
with its content and within the budget `S`, except a chunk that consists of
a single normalized source paragraph whose length alone exceeds `S`
(oversized content is never truncated). -/
theorem claim_C4_budget_respect (events : List DocEvent) (S : Nat) (c : Chunk)
    (hc : c ∈ assembleChunks events S) :
    c.char_count = c.content.length ∧
    (c.char_count ≤ S ∨ (c.content ∈ paras events ∧ S < c.char_count)) := by
  obtain ⟨h1, _⟩ := assembleChunks_inv events S
  obtain ⟨ha, _, hcc⟩ := h1 c hc
  refine ⟨ha, ?_⟩
  rcases le_or_lt c.char_count S with hle | hgt
  · exact Or.inl hle
  · rcases hcc with h | h
    · omega
    · exact Or.inr ⟨h, hgt⟩

/-- Witness for C4 at a concrete input: a single 11-character paragraph
with budget 5 becomes its own oversized chunk. -/
theorem claim_C4_budget_respect_witness :
    (⟨1, "Introduction".toList, "Hello world".toList, 11⟩ : Chunk).char_count =
        (⟨1, "Introduction".toList, "Hello world".toList, 11⟩ : Chunk).content.length ∧
    ((⟨1, "Introduction".toList, "Hello world".toList, 11⟩ : Chunk).char_count ≤ 5 ∨
      ((⟨1, "Introduction".toList, "Hello world".toList, 11⟩ : Chunk).content ∈
          paras [DocEvent.paragraph "Hello world".toList] ∧
        5 < (⟨1, "Introduction".toList, "Hello world".toList, 11⟩ : Chunk).char_count)) :=
  claim_C4_budget_respect [DocEvent.paragraph "Hello world".toList] 5 _ (by decide)

/-- C5: Coverage round-trip — undoing the single-newline joins of the
assembled chunks, in order, reconstructs exactly the ordered stream of
whitespace-normalized non-empty paragraphs; and the spec scenario:
paragraphs "Alpha." then "Beta." with budget 100 yield one chunk whose
content is "Alpha.\nBeta.". -/
theorem claim_C5_coverage (events : List DocEvent) (S : Nat) :
    ((assembleChunks events S).map fun c => splitNL c.content).flatten =
        paras events ∧
    assembleChunks
        [DocEvent.paragraph "Alpha.".toList, DocEvent.paragraph "Beta.".toList]
        100 =
      [⟨1, "Introduction".toList, "Alpha.\nBeta.".toList, 12⟩] :=
  ⟨(assembleChunks_inv events S).2, by decide⟩

/-- C10: a document whose paragraphs are all empty or whitespace-only
produces zero chunks, and `parse_xml` then raises `ZeroDivisionError`
computing the average chunk size; `parse_xml` returns normally only when
at least one chunk was produced. -/
theorem claim_C10_empty_doc_zero_division (events : List DocEvent) (S : Nat) :
    (allParasBlank events = true →
      assembleChunks events S = [] ∧
      parseXml events S = .error .zeroDivisionAvg) ∧
    (∀ cs, parseXml events S = .ok cs → cs ≠ []) := by
  constructor
  · intro hblank
    have hps := paras_nil_of_blank hblank
    have hcover := (assembleChunks_inv events S).2
    rw [hps] at hcover
    have hmap : ∀ l ∈ (assembleChunks events S).map (fun c => splitNL c.content),
        l = [] := List.flatten_eq_nil_iff.mp hcover
    have hnil : assembleChunks events S = [] := by
      rcases ha : assembleChunks events S with _ | ⟨c0, rest⟩
      · rfl
      · exfalso
        have hmem : splitNL c0.content ∈
            (assembleChunks events S).map (fun c => splitNL c.content) := by
          rw [ha]; simp
        exact splitNL_ne_nil c0.content (hmap _ hmem)
    refine ⟨hnil, ?_⟩
    rw [parseXml]
    simp [hnil]
  · intro cs hcs
    rw [parseXml] at hcs
    by_cases h : assembleChunks events S = []
    · simp [h] at hcs
    · simp only [h, if_neg] at hcs
      have : cs = assembleChunks events S := by
        simpa using hcs.symm
      rw [this]
      exact h

/-- Witness for C10 at a concrete input: a heading plus a whitespace-only
paragraph produce no chunks and abort with the division by zero. -/
theorem claim_C10_witness :
    assembleChunks [DocEvent.heading "Ch1".toList,
        DocEvent.paragraph "  \t ".toList] 1000 = [] ∧
    parseXml [DocEvent.heading "Ch1".toList,
        DocEvent.paragraph "  \t ".toList] 1000 = .error .zeroDivisionAvg :=
  (claim_C10_empty_doc_zero_division _ 1000).1 (by decide)

/- ### RetryingTranslator: `translate_accurately` (src/english.py lines 23-118) -/

/-- Outcome of one call to the external translation client
(`translator.translate`): a returned string (possibly empty — the code
treats a falsy result as a non-result), or an exception classified by the
retry policy from its message (rate limit / connection / other). -/
inductive ClientOutcome
  | ok (text : List Char)
  | errRateLimited
  | errConnection
  | errOther
  deriving DecidableEq

/-- Observable side effects of `translate_accurately`, in chronological
order.  `preWait b` records the progressive pre-attempt delay
`time.sleep(3 + attempt*2 + random.uniform(0, 2))` by its deterministic
base `b = 3 + attempt*2` (the bounded random jitter in `[0, 2)` is real
valued and left abstract); `partWait` records the 1-2s random sleep
between long-text parts; the remaining events record the classified
cooldowns with their exact second durations. -/
inductive Ev
  | preWait (base : Nat)
  | clientCall (input : List Char)
  | partWait
  | rlWait (d : Nat)
  | connWait (d : Nat)
  | otherWait (d : Nat)
  deriving DecidableEq

/-- The fixed attempt budget `max_attempts = 5` (src/english.py line 40). -/
def maxAttempts : Nat := 5

/-- Devanagari sentence enders plus newline (src/english.py line 56). -/
def isMarker (c : Char) : Bool :=
  c = '।' || c = '॥' || c = '\n'

/-- The character-by-character splitting loop for long text
(src/english.py lines 51-61): a fragment is sealed right after a marker
once the accumulated fragment exceeds 100 characters; the trailing
fragment is kept when its stripped form is non-empty. -/
def splitSentGo : List Char → List Char → List (List Char)
  | [], current => if pyStrip current = [] then [] else [pyStrip current]
  | c :: cs, current =>
      let cur := current ++ [c]
      if isMarker c ∧ 100 < cur.length then pyStrip cur :: splitSentGo cs []
      else splitSentGo cs cur

/-- Fragment decomposition of an over-threshold text. -/
def splitSentences (text : List Char) : List (List Char) :=
  splitSentGo text []

/-- Model of `text.replace(' ','').replace('.','').replace(',','').isdigit()`
(src/english.py line 36): after removing spaces, periods and commas the
remainder is a non-empty digit string. -/
def numericish (t : List Char) : Bool :=
  let u := t.filter fun c => !(c == ' ' || c == '.' || c == ',')
  !u.isEmpty && u.all Char.isDigit

/-- Result of the retry loop: the translation (or `none` for permanent
failure), the number of client calls consumed from the oracle, and the
event trace. -/
structure TAResult where
  res : Option (List Char)
  k : Nat
  evs : List Ev
  deriving DecidableEq

/-- Result of the per-part loop inside the long-text branch. -/
structure PartsResult where
  translations : List (List Char)
  k : Nat
  evs : List Ev
  deriving DecidableEq

/-- The per-part loop of the long-text branch (src/english.py lines
64-79): parts shorter than 3 characters are skipped; a client response is
kept (stripped) when it is non-empty, strips to non-empty and differs
from the part; client exceptions are swallowed; a short random sleep
happens after every non-final part's call. -/
def partsLoop (ocl : Nat → ClientOutcome) :
    List (List Char) → Nat → Nat → Nat → PartsResult
  | [], k, _, _ => ⟨[], k, []⟩
  | p :: ps, k, i, n =>
      if p.length < 3 then partsLoop ocl ps k (i + 1) n
      else
        match ocl k with
        | .ok t =>
            let keep : List (List Char) :=
              if t ≠ [] ∧ pyStrip t ≠ [] ∧ t ≠ p then [pyStrip t] else []
            let waits : List Ev := if i < n - 1 then [.partWait] else []
            let rest := partsLoop ocl ps (k + 1) (i + 1) n
            ⟨keep ++ rest.translations, rest.k, .clientCall p :: (waits ++ rest.evs)⟩
        | _ =>
            let rest := partsLoop ocl ps (k + 1) (i + 1) n
            ⟨rest.translations, rest.k, .clientCall p :: rest.evs⟩

/-- The attempt loop of `translate_accurately` (src/english.py lines
42-117), recursing on the remaining attempts with the current attempt
index and oracle cursor.  Falling out of the loop yields `none`
(`best_translation` is only ever set right before `break`). -/
def taGo (ocl : Nat → ClientOutcome) (text : List Char) :
    Nat → Nat → Nat → TAResult
  | 0, _, k => ⟨none, k, []⟩
  | rem + 1, attempt, k =>
      let pre : Ev := .preWait (3 + attempt * 2)
      if 4000 < text.length then
        let parts := splitSentences text
        let pr := partsLoop ocl parts k 0 parts.length
        if pr.translations ≠ [] then
          let result := joinSpace pr.translations
          if result ≠ [] ∧ 10 < result.length then
            ⟨some result, pr.k, pre :: pr.evs⟩
          else
            let next := taGo ocl text rem (attempt + 1) pr.k
            ⟨next.res, next.k, pre :: (pr.evs ++ next.evs)⟩
        else
          let next := taGo ocl text rem (attempt + 1) pr.k
          ⟨next.res, next.k, pre :: (pr.evs ++ next.evs)⟩
      else
        match ocl k with
        | .ok r =>
            if r ≠ [] ∧ pyStrip r ≠ [] ∧ r ≠ text ∧ 2 < r.length then
              ⟨some (pyStrip r), k + 1, [pre, .clientCall text]⟩
            else
              let next := taGo ocl text rem (attempt + 1) (k + 1)
              ⟨next.res, next.k, pre :: .clientCall text :: next.evs⟩
        | .errRateLimited =>
            let next := taGo ocl text rem (attempt + 1) (k + 1)
            ⟨next.res, next.k,
              pre :: .clientCall text :: .rlWait (20 + attempt * 10) :: next.evs⟩
        | .errConnection =>
            let next := taGo ocl text rem (attempt + 1) (k + 1)
            ⟨next.res, next.k,
              pre :: .clientCall text :: .connWait (10 + attempt * 5) :: next.evs⟩
        | .errOther =>
            if attempt < maxAttempts - 1 then
              let next := taGo ocl text rem (attempt + 1) (k + 1)
              ⟨next.res, next.k,
                pre :: .clientCall text :: .otherWait 5 :: next.evs⟩
            else ⟨none, k + 1, [pre, .clientCall text]⟩

/-- Model of `translate_accurately(text, chunk_id)`: strip, classify very
short and purely numeric content as sentinels without any client call,
otherwise run the bounded retry loop. -/
def translateAccurately (text0 : List Char) (chunk_id : Nat)
    (ocl : Nat → ClientOutcome) : TAResult :=
  let text := pyStrip text0
  if text.length < 3 then ⟨some "[too short]".toList, 0, []⟩
  else if numericish text then
    ⟨some ("[numeric: ".toList ++ text ++ "]".toList), 0, []⟩
  else taGo ocl text maxAttempts 0 0

/-- The texts submitted to the translation client, in order. -/
def callInputs (evs : List Ev) : List (List Char) :=
  evs.filterMap fun e =>
    match e with
    | .clientCall s => some s
    | _ => none

/-- The rate-limit cooldown durations applied, in order. -/
def rlDurations (evs : List Ev) : List Nat :=
  evs.filterMap fun e =>
    match e with
    | .rlWait d => some d
    | _ => none

/-- The pre-attempt base delays applied, in order (one per attempt). -/
def preBases (evs : List Ev) : List Nat :=
  evs.filterMap fun e =>
    match e with
    | .preWait b => some b
    | _ => none

/- ### TranslationOrchestrator: `translate_from_id` (src/english.py lines 120-292) -/

/-- A row of the `shiv_puran_chunks` table as seen by the orchestrator:
key `chunk_id`, original `content`, and the nullable
`English_translation` column. -/
structure Row where
  chunk_id : Nat
  content : List Char
  translation : Option (List Char)
  deriving DecidableEq

/-- The discovery filter (src/english.py lines 188-195): `chunk_id >=
start_id`, optionally `chunk_id <= end_id`, and `English_translation IS
NULL`. -/
def rowWanted (start_id : Nat) (end_id : Option Nat) (r : Row) : Bool :=
  decide (start_id ≤ r.chunk_id) &&
    (match end_id with
     | none => true
     | some e => decide (r.chunk_id ≤ e)) &&
    r.translation.isNone

/-- The worklist of a run: the store rows passing the discovery filter,
ordered by `chunk_id` (the query's `.order("chunk_id")`). -/
def worklist (store : List Row) (start_id : Nat) (end_id : Option Nat) :
    List Row :=
  List.insertionSort (fun a b => a.chunk_id ≤ b.chunk_id)
    (store.filter (rowWanted start_id end_id))

/-- The write-back guard (src/english.py line 244): the returned
translation is written only when it is truthy and strips to non-empty. -/
def optWrite (res : Option (List Char)) : Option (List Char) :=
  match res with
  | some t => if t ≠ [] ∧ pyStrip t ≠ [] then some t else none
  | none => none

/-- The per-chunk body of the `translate_from_id` loop (src/english.py
lines 202-260), as the value written to the row's translation column
(`none` = no write): empty/whitespace-only content gets the "[empty]"
sentinel, stripped content shorter than 3 characters gets "[too short]",
otherwise the retrying translator runs and its result is written when it
passes the write-back guard. -/
def processChunkWrite (chunk_id : Nat) (content : List Char)
    (ocl : Nat → ClientOutcome) : Option (List Char) :=
  if pyStrip content = [] then some "[empty]".toList
  else
    let content_clean := pyStrip content
    if content_clean.length < 3 then some "[too short]".toList
    else optWrite (translateAccurately content_clean chunk_id ocl).res

/-- Model of the store update
`update({"English_translation": t}).eq("chunk_id", c)`: every row with
the given `chunk_id` has its translation set. -/
def updateStore (store : List Row) (c : Nat) (t : List Char) : List Row :=
  store.map fun r =>
    if r.chunk_id = c then { r with translation := some t } else r

/-- The run's main loop over the (pre-fetched) worklist, threading the
store through the per-chunk writes. -/
def processRows (ocl : Nat → Nat → ClientOutcome) :
    List Row → List Row → List Row
  | [], store => store
  | r :: rs, store =>
      match processChunkWrite r.chunk_id r.content (ocl r.chunk_id) with
      | some t => processRows ocl rs (updateStore store r.chunk_id t)
      | none => processRows ocl rs store

/-- One full run of `translate_from_id` over a store: discover the
worklist once, then process it row by row.  `ocl` gives each chunk its
stream of client outcomes. -/
def runTranslateFromId (store : List Row) (start_id : Nat)
    (end_id : Option Nat) (ocl : Nat → Nat → ClientOutcome) : List Row :=
  processRows ocl (worklist store start_id end_id) store

/- ### Trace projection simp lemmas -/

@[simp] theorem preBases_nil : preBases [] = [] := rfl

@[simp] theorem preBases_cons_pre (b : Nat) (evs : List Ev) :
    preBases (.preWait b :: evs) = b :: preBases evs := rfl

@[simp] theorem preBases_cons_call (s : List Char) (evs : List Ev) :
    preBases (.clientCall s :: evs) = preBases evs := rfl

@[simp] theorem preBases_cons_part (evs : List Ev) :
    preBases (.partWait :: evs) = preBases evs := rfl

@[simp] theorem preBases_cons_rl (d : Nat) (evs : List Ev) :
    preBases (.rlWait d :: evs) = preBases evs := rfl

@[simp] theorem preBases_cons_conn (d : Nat) (evs : List Ev) :
    preBases (.connWait d :: evs) = preBases evs := rfl

@[simp] theorem preBases_cons_other (d : Nat) (evs : List Ev) :
    preBases (.otherWait d :: evs) = preBases evs := rfl

@[simp] theorem preBases_append (a b : List Ev) :
    preBases (a ++ b) = preBases a ++ preBases b :=
  List.filterMap_append a b _

@[simp] theorem rlDurations_nil : rlDurations [] = [] := rfl

@[simp] theorem rlDurations_cons_pre (b : Nat) (evs : List Ev) :
    rlDurations (.preWait b :: evs) = rlDurations evs := rfl

@[simp] theorem rlDurations_cons_call (s : List Char) (evs : List Ev) :
    rlDurations (.clientCall s :: evs) = rlDurations evs := rfl

@[simp] theorem rlDurations_cons_part (evs : List Ev) :
    rlDurations (.partWait :: evs) = rlDurations evs := rfl

@[simp] theorem rlDurations_cons_rl (d : Nat) (evs : List Ev) :
    rlDurations (.rlWait d :: evs) = d :: rlDurations evs := rfl

@[simp] theorem rlDurations_cons_conn (d : Nat) (evs : List Ev) :
    rlDurations (.connWait d :: evs) = rlDurations evs := rfl

@[simp] theorem rlDurations_cons_other (d : Nat) (evs : List Ev) :
    rlDurations (.otherWait d :: evs) = rlDurations evs := rfl

@[simp] theorem rlDurations_append (a b : List Ev) :
    rlDurations (a ++ b) = rlDurations a ++ rlDurations b :=
  List.filterMap_append a b _

@[simp] theorem callInputs_nil : callInputs [] = [] := rfl

@[simp] theorem callInputs_cons_pre (b : Nat) (evs : List Ev) :
    callInputs (.preWait b :: evs) = callInputs evs := rfl

@[simp] theorem callInputs_cons_call (s : List Char) (evs : List Ev) :
    callInputs (.clientCall s :: evs) = s :: callInputs evs := rfl

@[simp] theorem callInputs_cons_part (evs : List Ev) :
    callInputs (.partWait :: evs) = callInputs evs := rfl

@[simp] theorem callInputs_cons_rl (d : Nat) (evs : List Ev) :
    callInputs (.rlWait d :: evs) = callInputs evs := rfl

@[simp] theorem callInputs_cons_conn (d : Nat) (evs : List Ev) :
    callInputs (.connWait d :: evs) = callInputs evs := rfl

@[simp] theorem callInputs_cons_other (d : Nat) (evs : List Ev) :
    callInputs (.otherWait d :: evs) = callInputs evs := rfl

@[simp] theorem callInputs_append (a b : List Ev) :
    callInputs (a ++ b) = callInputs a ++ callInputs b :=
  List.filterMap_append a b _

/- ### C6: retry termination -/

theorem partsLoop_no_pre (ocl : Nat → ClientOutcome) :
    ∀ (ps : List (List Char)) (k i n : Nat),
      preBases (partsLoop ocl ps k i n).evs = [] := by
  intro ps
  induction ps with
  | nil => intro k i n; rfl
  | cons p ps ih =>
      intro k i n
      rw [partsLoop]
      by_cases hp : p.length < 3
      · rw [if_pos hp]; exact ih k (i + 1) n
      · rw [if_neg hp]
        cases h : ocl k with
        | ok t =>
            by_cases hw : i < n - 1 <;>
              simp [hw, ih (k + 1) (i + 1) n]
        | errRateLimited => simpa using ih (k + 1) (i + 1) n
        | errConnection => simpa using ih (k + 1) (i + 1) n
        | errOther => simpa using ih (k + 1) (i + 1) n

theorem taGo_pre_count (ocl : Nat → ClientOutcome) (text : List Char) :
    ∀ (rem attempt k : Nat),
      (preBases (taGo ocl text rem attempt k).evs).length ≤ rem := by
  intro rem
  induction rem with
  | zero => intro attempt k; simp [taGo, preBases]
  | succ rem ih =>
      intro attempt k
      rw [taGo]
      by_cases hlong : 4000 < text.length
      · rw [if_pos hlong]
        have hzero := partsLoop_no_pre ocl (splitSentences text) k 0
          (splitSentences text).length
        by_cases ht : (partsLoop ocl (splitSentences text) k 0
            (splitSentences text).length).translations ≠ []
        · rw [if_pos ht]
          by_cases hq : joinSpace (partsLoop ocl (splitSentences text) k 0
              (splitSentences text).length).translations ≠ [] ∧
              10 < (joinSpace (partsLoop ocl (splitSentences text) k 0
                (splitSentences text).length).translations).length
          · rw [if_pos hq]
            simp [hzero]
          · rw [if_neg hq]
            have := ih (attempt + 1)
              (partsLoop ocl (splitSentences text) k 0
                (splitSentences text).length).k
            simp [hzero]
            omega
        · rw [if_neg ht]
          have := ih (attempt + 1)
            (partsLoop ocl (splitSentences text) k 0
              (splitSentences text).length).k
          simp [hzero]
          omega
      · rw [if_neg hlong]
        cases h : ocl k with
        | ok r =>
            by_cases hq : r ≠ [] ∧ pyStrip r ≠ [] ∧ r ≠ text ∧ 2 < r.length
            · simp [hq]
            · have := ih (attempt + 1) (k + 1)
              simp only [hq, if_false, iff_false, preBases_cons_pre,
                preBases_cons_call, List.length_cons]
              simp [hq]
              omega
        | errRateLimited =>
            have := ih (attempt + 1) (k + 1)
            simp
            omega
        | errConnection =>
            have := ih (attempt + 1) (k + 1)
            simp
            omega
        | errOther =>
            by_cases hlast : attempt < maxAttempts - 1
            · have := ih (attempt + 1) (k + 1)
              simp [hlast]
              omega
            · simp [hlast]

/-- C6: Retry termination — for every input text and every sequence of
client outcomes, `translate_accurately` applies at most the fixed budget
of `max_attempts = 5` pre-attempt delays (one per started attempt) and
ends in either a translation result or the permanent-failure `None`. -/
theorem claim_C6_retry_termination (text0 : List Char) (cid : Nat)
    (ocl : Nat → ClientOutcome) :
    (preBases (translateAccurately text0 cid ocl).evs).length ≤ maxAttempts ∧
    ((translateAccurately text0 cid ocl).res = none ∨
      ∃ t, (translateAccurately text0 cid ocl).res = some t) := by
  constructor
  · rw [translateAccurately]
    by_cases h1 : (pyStrip text0).length < 3
    · rw [if_pos h1]; simp [preBases, maxAttempts]
    · rw [if_neg h1]
      by_cases h2 : numericish (pyStrip text0)
      · rw [if_pos h2]; simp [preBases, maxAttempts]
      · rw [if_neg h2]
        exact taGo_pre_count ocl (pyStrip text0) maxAttempts 0 0
  · cases h : (translateAccurately text0 cid ocl).res with
    | none => exact Or.inl rfl
    | some t => exact Or.inr ⟨t, rfl⟩

/- ### C7: rate-limit retry scenario -/

/-- C7: if the client is rate limited on attempts 1-4 and returns a
qualifying result `r` on attempt 5, `translate_accurately` returns the
attempt-5 result (stripped), exactly 4 rate-limit cooldowns are applied
with the attempt-scaled durations `20 + attempt*10` = 20, 30, 40, 50
seconds, a progressive pre-attempt base delay `3 + attempt*2` (plus
bounded random jitter, abstracted) precedes every attempt including the
first, and the orchestrator writes the result as the chunk's
translation. -/
theorem claim_C7_rate_limit_retry (content r : List Char) (cid : Nat)
    (ocl : Nat → ClientOutcome)
    (h3 : 3 ≤ (pyStrip content).length)
    (h4000 : (pyStrip content).length ≤ 4000)
    (hnum : numericish (pyStrip content) = false)
    (hrl : ∀ k, k < 4 → ocl k = .errRateLimited)
    (hok : ocl 4 = .ok r)
    (hr1 : r ≠ []) (hr2 : pyStrip r ≠ [])
    (hr3 : r ≠ pyStrip content) (hr4 : 2 < r.length) :
    (translateAccurately (pyStrip content) cid ocl).res = some (pyStrip r) ∧
    rlDurations (translateAccurately (pyStrip content) cid ocl).evs =
      [20, 30, 40, 50] ∧
    preBases (translateAccurately (pyStrip content) cid ocl).evs =
      [3, 5, 7, 9, 11] ∧
    processChunkWrite cid content ocl = some (pyStrip r) := by
  have hidem : pyStrip (pyStrip content) = pyStrip content := pyStrip_idem content
  have hlong : ¬ 4000 < (pyStrip content).length := by omega
  have e4 : taGo ocl (pyStrip content) 1 4 4 =
      ⟨some (pyStrip r), 5, [.preWait 11, .clientCall (pyStrip content)]⟩ := by
    rw [taGo, if_neg hlong, hok]
    simp [hr1, hr2, hr3, hr4]
  have e3 : taGo ocl (pyStrip content) 2 3 3 =
      ⟨some (pyStrip r), 5,
        [.preWait 9, .clientCall (pyStrip content), .rlWait 50,
         .preWait 11, .clientCall (pyStrip content)]⟩ := by
    rw [taGo, if_neg hlong, hrl 3 (by omega)]
    simp [e4]
  have e2 : taGo ocl (pyStrip content) 3 2 2 =
      ⟨some (pyStrip r), 5,
        [.preWait 7, .clientCall (pyStrip content), .rlWait 40,
         .preWait 9, .clientCall (pyStrip content), .rlWait 50,
         .preWait 11, .clientCall (pyStrip content)]⟩ := by
    rw [taGo, if_neg hlong, hrl 2 (by omega)]
    simp [e3]
  have e1 : taGo ocl (pyStrip content) 4 1 1 =
      ⟨some (pyStrip r), 5,
        [.preWait 5, .clientCall (pyStrip content), .rlWait 30,
         .preWait 7, .clientCall (pyStrip content), .rlWait 40,
         .preWait 9, .clientCall (pyStrip content), .rlWait 50,
         .preWait 11, .clientCall (pyStrip content)]⟩ := by
    rw [taGo, if_neg hlong, hrl 1 (by omega)]
    simp [e2]
  have e0 : taGo ocl (pyStrip content) 5 0 0 =
      ⟨some (pyStrip r), 5,
        [.preWait 3, .clientCall (pyStrip content), .rlWait 20,
         .preWait 5, .clientCall (pyStrip content), .rlWait 30,
         .preWait 7, .clientCall (pyStrip content), .rlWait 40,
         .preWait 9, .clientCall (pyStrip content), .rlWait 50,
         .preWait 11, .clientCall (pyStrip content)]⟩ := by
    rw [taGo, if_neg hlong, hrl 0 (by omega)]
    simp [e1]
  have hta : translateAccurately (pyStrip content) cid ocl =
      ⟨some (pyStrip r), 5,
        [.preWait 3, .clientCall (pyStrip content), .rlWait 20,
         .preWait 5, .clientCall (pyStrip content), .rlWait 30,
         .preWait 7, .clientCall (pyStrip content), .rlWait 40,
         .preWait 9, .clientCall (pyStrip content), .rlWait 50,
         .preWait 11, .clientCall (pyStrip content)]⟩ := by
    rw [translateAccurately]
    simp only [hidem]
    rw [if_neg (by omega), if_neg (by simp [hnum])]
    exact e0
  refine ⟨by rw [hta], by rw [hta]; rfl, by rw [hta]; rfl, ?_⟩
  rw [processChunkWrite]
  have hne : pyStrip content ≠ [] := by
    intro hnil; rw [hnil] at h3; simp at h3
  rw [if_neg hne]
  simp only
  rw [if_neg (by omega)]
  rw [hta]
  rw [optWrite]
  simp [hr2, pyStrip_idem]

/-- Witness for C7 at a concrete input: content "abcd", client answer
"WXYZ" on the fifth call after four rate limits. -/
theorem claim_C7_rate_limit_retry_witness :
    (translateAccurately (pyStrip "abcd".toList) 0
        (fun k => if k < 4 then .errRateLimited else .ok "WXYZ".toList)).res =
      some (pyStrip "WXYZ".toList) ∧
    rlDurations (translateAccurately (pyStrip "abcd".toList) 0
        (fun k => if k < 4 then .errRateLimited else .ok "WXYZ".toList)).evs =
      [20, 30, 40, 50] ∧
    preBases (translateAccurately (pyStrip "abcd".toList) 0
        (fun k => if k < 4 then .errRateLimited else .ok "WXYZ".toList)).evs =
      [3, 5, 7, 9, 11] ∧
    processChunkWrite 0 "abcd".toList
        (fun k => if k < 4 then .errRateLimited else .ok "WXYZ".toList) =
      some (pyStrip "WXYZ".toList) :=
  claim_C7_rate_limit_retry "abcd".toList "WXYZ".toList 0 _
    (by decide) (by decide) (by decide)
    (fun k hk => if_pos hk) (if_neg (by decide))
    (by decide) (by decide) (by decide) (by decide)

/- ### C3: degenerate-content classification -/

/-- Counterexample to C3 as stated: the chunk content "42" (stripped
length 2) is caught by the too-short floor in `translate_from_id` before
the numeric check in `translate_accurately` is ever reached, so the value
written is "[too short]", not "[numeric: 42]". -/
theorem claim_C3_counterexample :
    processChunkWrite 42 "42".toList (fun _ => .errOther) =
        some "[too short]".toList ∧
    processChunkWrite 42 "42".toList (fun _ => .errOther) ≠
        some "[numeric: 42]".toList := by
  constructor
  · decide
  · decide

theorem numeric_sentinel_strip (t : List Char) :
    pyStrip ("[numeric: ".toList ++ t ++ "]".toList) =
      "[numeric: ".toList ++ t ++ "]".toList := by
  apply pyStrip_eq_self
  right
  have hne1 : "[numeric: ".toList ++ t ≠ [] := by
    intro hh
    have := congrArg List.length hh
    simp at this
  constructor
  · refine ⟨'[', ?_, by decide⟩
    rw [List.head?_append_of_ne_nil _ hne1]
    rw [List.head?_append_of_ne_nil _ (by decide : "[numeric: ".toList ≠ [])]
    rfl
  · refine ⟨']', ?_, by decide⟩
    rw [List.getLast?_append_of_ne_nil _ (by decide : "]".toList ≠ [])]
    rfl

/-- C3 (amended): empty/whitespace-only content is written as "[empty]";
content whose stripped form is shorter than the 3-character floor —
including the content "42" — is written as "[too short]"; content passing
the floor that is purely numeric after removing spaces, periods and
commas is written as "[numeric: <content>]" with no client call; all
other content proceeds to translation and the result is written exactly
when it passes the write-back guard. -/
theorem claim_C3_degenerate_amended (cid : Nat) (content : List Char)
    (ocl : Nat → ClientOutcome) :
    (pyStrip content = [] →
      processChunkWrite cid content ocl = some "[empty]".toList) ∧
    (pyStrip content ≠ [] → (pyStrip content).length < 3 →
      processChunkWrite cid content ocl = some "[too short]".toList) ∧
    (3 ≤ (pyStrip content).length → numericish (pyStrip content) = true →
      processChunkWrite cid content ocl =
          some ("[numeric: ".toList ++ pyStrip content ++ "]".toList) ∧
        callInputs (translateAccurately (pyStrip content) cid ocl).evs = []) ∧
    (3 ≤ (pyStrip content).length → numericish (pyStrip content) = false →
      processChunkWrite cid content ocl =
        optWrite (translateAccurately (pyStrip content) cid ocl).res) := by
  have hidem := pyStrip_idem content
  refine ⟨?_, ?_, ?_, ?_⟩
  · intro h
    rw [processChunkWrite, if_pos h]
  · intro h1 h2
    rw [processChunkWrite, if_neg h1]
    simp only
    rw [if_pos h2]
  · intro h1 h2
    have hne : pyStrip content ≠ [] := by
      intro hnil; rw [hnil] at h1; simp at h1
    have hta : translateAccurately (pyStrip content) cid ocl =
        ⟨some ("[numeric: ".toList ++ pyStrip content ++ "]".toList), 0, []⟩ := by
      rw [translateAccurately]
      simp only [hidem]
      rw [if_neg (by omega), if_pos h2]
    constructor
    · rw [processChunkWrite, if_neg hne]
      simp only
      rw [if_neg (by omega), hta, optWrite]
      rw [if_pos ⟨by simp, by rw [numeric_sentinel_strip]; simp⟩]
    · rw [hta]; rfl
  · intro h1 h2
    rw [processChunkWrite, if_neg (by intro hnil; rw [hnil] at h1; simp at h1)]
    simp only
    rw [if_neg (by omega)]

/-- Witness for the amended C3: "42" is written as "[too short]" and
"123" is written as "[numeric: 123]" with no client call. -/
theorem claim_C3_degenerate_amended_witness :
    processChunkWrite 42 "42".toList (fun _ => .errOther) =
        some "[too short]".toList ∧
    (processChunkWrite 7 "123".toList (fun _ => .errOther) =
        some ("[numeric: ".toList ++ pyStrip "123".toList ++ "]".toList) ∧
      callInputs (translateAccurately (pyStrip "123".toList) 7
          (fun _ => .errOther)).evs = []) :=
  ⟨(claim_C3_degenerate_amended 42 "42".toList (fun _ => .errOther)).2.1
      (by decide) (by decide),
   (claim_C3_degenerate_amended 7 "123".toList (fun _ => .errOther)).2.2.1
      (by decide) (by decide)⟩

/- ### Store-level lemmas for the orchestrator run -/

/-- The value the run writes for a worklist row (`none` = no write). -/
def writeOf (ocl : Nat → Nat → ClientOutcome) (r : Row) : Option (List Char) :=
  processChunkWrite r.chunk_id r.content (ocl r.chunk_id)

/-- The cumulative effect of the run's per-row updates on one store row:
each processed worklist row with a successful write sets the translation
of every row sharing its `chunk_id`. -/
def rowsEffect (ocl : Nat → Nat → ClientOutcome) : List Row → Row → Row
  | [], r0 => r0
  | r :: rs, r0 =>
      match writeOf ocl r with
      | some t =>
          rowsEffect ocl rs
            (if r0.chunk_id = r.chunk_id then { r0 with translation := some t }
             else r0)
      | none => rowsEffect ocl rs r0

theorem processRows_eq_map (ocl : Nat → Nat → ClientOutcome) :
    ∀ (rows s : List Row),
      processRows ocl rows s = s.map (rowsEffect ocl rows) := by
  intro rows
  induction rows with
  | nil =>
      intro s
      show s = s.map fun r0 => r0
      simp
  | cons r rs ih =>
      intro s
      rw [processRows]
      cases h : processChunkWrite r.chunk_id r.content (ocl r.chunk_id) with
      | some t =>
          have hw : writeOf ocl r = some t := h
          show processRows ocl rs (updateStore s r.chunk_id t) =
            List.map (rowsEffect ocl (r :: rs)) s
          rw [ih]
          unfold updateStore
          rw [List.map_map]
          apply List.map_congr_left
          intro r0 _
          show rowsEffect ocl rs _ = rowsEffect ocl (r :: rs) r0
          simp only [rowsEffect, hw, Function.comp]
      | none =>
          have hw : writeOf ocl r = none := h
          show processRows ocl rs s = List.map (rowsEffect ocl (r :: rs)) s
          rw [ih]
          apply List.map_congr_left
          intro r0 _
          show rowsEffect ocl rs r0 = rowsEffect ocl (r :: rs) r0
          simp only [rowsEffect, hw]

theorem rowsEffect_id_content (ocl : Nat → Nat → ClientOutcome) :
    ∀ (rows : List Row) (r0 : Row),
      (rowsEffect ocl rows r0).chunk_id = r0.chunk_id ∧
      (rowsEffect ocl rows r0).content = r0.content := by
  intro rows
  induction rows with
  | nil => intro r0; exact ⟨rfl, rfl⟩
  | cons r rs ih =>
      intro r0
      cases hw : writeOf ocl r with
      | some t =>
          simp only [rowsEffect, hw]
          by_cases hc : r0.chunk_id = r.chunk_id
          · rw [if_pos hc]
            obtain ⟨h1, h2⟩ := ih { r0 with translation := some t }
            exact ⟨h1, h2⟩
          · rw [if_neg hc]; exact ih r0
      | none => simp only [rowsEffect, hw]; exact ih r0

theorem rowsEffect_untouched (ocl : Nat → Nat → ClientOutcome) :
    ∀ (rows : List Row) (r0 : Row),
      (∀ r ∈ rows, writeOf ocl r ≠ none → r.chunk_id ≠ r0.chunk_id) →
      rowsEffect ocl rows r0 = r0 := by
  intro rows
  induction rows with
  | nil => intro r0 _; rfl
  | cons r rs ih =>
      intro r0 h
      cases hw : writeOf ocl r with
      | some t =>
          simp only [rowsEffect, hw]
          have hne : r.chunk_id ≠ r0.chunk_id :=
            h r (List.mem_cons_self r rs) (by simp [hw])
          rw [if_neg fun he => hne he.symm]
          exact ih r0 fun x hx hwx => h x (List.mem_cons_of_mem r hx) hwx
      | none =>
          simp only [rowsEffect, hw]
          exact ih r0 fun x hx hwx => h x (List.mem_cons_of_mem r hx) hwx

theorem rowsEffect_keeps_some (ocl : Nat → Nat → ClientOutcome) :
    ∀ (rows : List Row) (r0 : Row) (t : List Char),
      r0.translation = some t →
      ∃ u, (rowsEffect ocl rows r0).translation = some u := by
  intro rows
  induction rows with
  | nil => intro r0 t h; exact ⟨t, h⟩
  | cons r rs ih =>
      intro r0 t h
      cases hw : writeOf ocl r with
      | some u =>
          simp only [rowsEffect, hw]
          by_cases hc : r0.chunk_id = r.chunk_id
          · rw [if_pos hc]
            exact ih _ u rfl
          · rw [if_neg hc]
            exact ih r0 t h
      | none => simp only [rowsEffect, hw]; exact ih r0 t h

theorem rowsEffect_writes (ocl : Nat → Nat → ClientOutcome) :
    ∀ (rows : List Row) (r0 r : Row),
      r ∈ rows → r.chunk_id = r0.chunk_id → writeOf ocl r ≠ none →
      ∃ u, (rowsEffect ocl rows r0).translation = some u := by
  intro rows
  induction rows with
  | nil => intro r0 r h; simp at h
  | cons x rs ih =>
      intro r0 r hmem hid hw
      rcases List.mem_cons.mp hmem with rfl | htail
      · cases hwx : writeOf ocl r with
        | some t =>
            simp only [rowsEffect, hwx]
            rw [if_pos hid.symm]
            exact rowsEffect_keeps_some ocl rs _ t rfl
        | none => exact absurd hwx hw
      · cases hwx : writeOf ocl x with
        | some t =>
            simp only [rowsEffect, hwx]
            by_cases hc : r0.chunk_id = x.chunk_id
            · rw [if_pos hc]
              exact rowsEffect_keeps_some ocl rs _ t rfl
            · rw [if_neg hc]
              exact ih r0 r htail hid hw
        | none => simp only [rowsEffect, hwx]; exact ih r0 r htail hid hw

theorem mem_worklist_iff {store : List Row} {lo : Nat} {hi : Option Nat}
    {r : Row} :
    r ∈ worklist store lo hi ↔ r ∈ store ∧ rowWanted lo hi r = true := by
  unfold worklist
  rw [(List.perm_insertionSort _ _).mem_iff, List.mem_filter]

theorem eq_of_mem_nodup_ids {s : List Row}
    (h : (s.map Row.chunk_id).Nodup) {a b : Row} (ha : a ∈ s) (hb : b ∈ s)
    (heq : a.chunk_id = b.chunk_id) : a = b :=
  List.inj_on_of_nodup_map h ha hb heq

/- ### C2: no silent failure marking -/

/-- C2: if the retry policy exhausts without a qualifying success
(returns `None`), the orchestrator writes nothing; any value the
orchestrator does write is non-empty (and strips to non-empty); and in a
run over a store with unique chunk ids, a null row whose processing
yields no write is left untouched — still null — and shows up again in
the next run's worklist when in range. -/
theorem claim_C2_no_silent_failure (cid : Nat) (content : List Char)
    (ocl1 : Nat → ClientOutcome) (store : List Row) (start_id : Nat)
    (end_id : Option Nat) (ocl : Nat → Nat → ClientOutcome) :
    ((translateAccurately (pyStrip content) cid ocl1).res = none →
      processChunkWrite cid content ocl1 = none) ∧
    (∀ t, processChunkWrite cid content ocl1 = some t →
      t ≠ [] ∧ pyStrip t ≠ []) ∧
    ((store.map Row.chunk_id).Nodup →
      ∀ r ∈ store, r.translation = none →
        processChunkWrite r.chunk_id r.content (ocl r.chunk_id) = none →
        r ∈ runTranslateFromId store start_id end_id ocl ∧
        (rowWanted start_id end_id r = true →
          r ∈ worklist (runTranslateFromId store start_id end_id ocl)
            start_id end_id)) := by
  refine ⟨?_, ?_, ?_⟩
  · intro h
    rw [processChunkWrite]
    by_cases h0 : pyStrip content = []
    · exfalso
      rw [translateAccurately] at h
      simp [pyStrip_idem, h0, pyStrip_nil] at h
    · rw [if_neg h0]
      simp only
      by_cases h1 : (pyStrip content).length < 3
      · exfalso
        rw [translateAccurately] at h
        simp only [pyStrip_idem] at h
        rw [if_pos h1] at h
        simp at h
      · rw [if_neg h1, h]
        rfl
  · intro t hwt
    rw [processChunkWrite] at hwt
    by_cases h0 : pyStrip content = []
    · rw [if_pos h0] at hwt
      have ht : t = "[empty]".toList := by simpa using hwt.symm
      subst ht
      exact ⟨by decide, by decide⟩
    · rw [if_neg h0] at hwt
      simp only at hwt
      by_cases h1 : (pyStrip content).length < 3
      · rw [if_pos h1] at hwt
        have ht : t = "[too short]".toList := by simpa using hwt.symm
        subst ht
        exact ⟨by decide, by decide⟩
      · rw [if_neg h1] at hwt
        cases hres : (translateAccurately (pyStrip content) cid ocl1).res with
        | none => rw [hres] at hwt; simp [optWrite] at hwt
        | some u =>
            rw [hres] at hwt
            simp only [optWrite] at hwt
            by_cases hq : u ≠ [] ∧ pyStrip u ≠ []
            · rw [if_pos hq] at hwt
              have ht : t = u := by simpa using hwt.symm
              subst ht
              exact hq
            · rw [if_neg hq] at hwt
              simp at hwt
  · intro hnd r hr hnull hwr
    have hmap : runTranslateFromId store start_id end_id ocl =
        store.map (rowsEffect ocl (worklist store start_id end_id)) :=
      processRows_eq_map ocl (worklist store start_id end_id) store
    have huntouched :
        rowsEffect ocl (worklist store start_id end_id) r = r := by
      apply rowsEffect_untouched
      intro x hx hwx heq
      have hxs : x ∈ store := (mem_worklist_iff.mp hx).1
      have hxr : x = r := eq_of_mem_nodup_ids hnd hxs hr heq
      apply hwx
      rw [hxr]
      exact hwr
    have hmem : r ∈ runTranslateFromId store start_id end_id ocl := by
      rw [hmap]
      exact List.mem_map.mpr ⟨r, hr, huntouched⟩
    exact ⟨hmem, fun hwant => mem_worklist_iff.mpr ⟨hmem, hwant⟩⟩

/-- Witness for C2 at a concrete input: a single null row whose client
always fails stays null and reappears in the next worklist. -/
theorem claim_C2_no_silent_failure_witness :
    (⟨7, "abcd".toList, none⟩ : Row) ∈
        runTranslateFromId [⟨7, "abcd".toList, none⟩] 1 none
          (fun _ _ => .errOther) ∧
    (rowWanted 1 none (⟨7, "abcd".toList, none⟩ : Row) = true →
      (⟨7, "abcd".toList, none⟩ : Row) ∈
        worklist (runTranslateFromId [⟨7, "abcd".toList, none⟩] 1 none
          (fun _ _ => .errOther)) 1 none) :=
  (claim_C2_no_silent_failure 0 [] (fun _ => .errOther)
      [⟨7, "abcd".toList, none⟩] 1 none (fun _ _ => .errOther)).2.2
    (by decide) ⟨7, "abcd".toList, none⟩ (by decide) (by decide) (by decide)

/- ### C1: idempotence / resumability -/

instance : IsTotal Row fun a b => a.chunk_id ≤ b.chunk_id :=
  ⟨fun a b => Nat.le_total a.chunk_id b.chunk_id⟩

instance : IsTrans Row fun a b => a.chunk_id ≤ b.chunk_id :=
  ⟨fun _ _ _ => Nat.le_trans⟩

theorem rowWanted_eq_true_iff {lo : Nat} {hi : Option Nat} {r : Row} :
    rowWanted lo hi r = true ↔
      lo ≤ r.chunk_id ∧ (∀ e, hi = some e → r.chunk_id ≤ e) ∧
        r.translation = none := by
  cases hi with
  | none => simp [rowWanted, Option.isNone_iff_eq_none]
  | some e => simp [rowWanted, Option.isNone_iff_eq_none, and_assoc]

/-- C1: the worklist of a run is exactly the store rows in the requested
`chunk_id` range whose translation is null, in `chunk_id` order; a row the
run successfully wrote is absent from the next run's worklist; and after
a fully successful run (every worklist row produced a write) the next
run's worklist over the same range is empty. -/
theorem claim_C1_idempotent_resumability (store : List Row) (start_id : Nat)
    (end_id : Option Nat) (ocl : Nat → Nat → ClientOutcome) :
    (∀ r, r ∈ worklist store start_id end_id ↔
      r ∈ store ∧ start_id ≤ r.chunk_id ∧
        (∀ e, end_id = some e → r.chunk_id ≤ e) ∧ r.translation = none) ∧
    (worklist store start_id end_id).Sorted
      (fun a b => a.chunk_id ≤ b.chunk_id) ∧
    (∀ r ∈ runTranslateFromId store start_id end_id ocl,
      (∃ t, r.translation = some t) →
        r ∉ worklist (runTranslateFromId store start_id end_id ocl)
          start_id end_id) ∧
    ((∀ r ∈ worklist store start_id end_id, writeOf ocl r ≠ none) →
      worklist (runTranslateFromId store start_id end_id ocl)
        start_id end_id = []) := by
  refine ⟨?_, ?_, ?_, ?_⟩
  · intro r
    rw [mem_worklist_iff, rowWanted_eq_true_iff]
  · exact List.sorted_insertionSort _ _
  · intro r _ ⟨t, ht⟩ hmem
    have := (rowWanted_eq_true_iff.mp (mem_worklist_iff.mp hmem).2).2.2
    rw [ht] at this
    exact Option.some_ne_none t this
  · intro hall
    have hmap : runTranslateFromId store start_id end_id ocl =
        store.map (rowsEffect ocl (worklist store start_id end_id)) :=
      processRows_eq_map ocl (worklist store start_id end_id) store
    have hfilter : (runTranslateFromId store start_id end_id ocl).filter
        (rowWanted start_id end_id) = [] := by
      rw [List.filter_eq_nil_iff]
      intro r' hr' hwanted
      rw [hmap] at hr'
      obtain ⟨r0, hr0, rfl⟩ := List.mem_map.mp hr'
      have hid :=
        (rowsEffect_id_content ocl (worklist store start_id end_id) r0).1
      obtain ⟨hw1, hw2, hw3⟩ := rowWanted_eq_true_iff.mp hwanted
      cases ht0 : r0.translation with
      | some t =>
          obtain ⟨u, hu⟩ := rowsEffect_keeps_some ocl
            (worklist store start_id end_id) r0 t ht0
          rw [hu] at hw3
          exact Option.some_ne_none u hw3
      | none =>
          have hr0w : rowWanted start_id end_id r0 = true := by
            rw [rowWanted_eq_true_iff]
            refine ⟨by rwa [hid] at hw1, ?_, ht0⟩
            intro e he
            have := hw2 e he
            rwa [hid] at this
          have hr0mem : r0 ∈ worklist store start_id end_id :=
            mem_worklist_iff.mpr ⟨hr0, hr0w⟩
          obtain ⟨u, hu⟩ := rowsEffect_writes ocl
            (worklist store start_id end_id) r0 r0 hr0mem rfl
            (hall r0 hr0mem)
          rw [hu] at hw3
          exact Option.some_ne_none u hw3
    unfold worklist
    rw [hfilter]
    rfl

/-- Witness for C1 at a concrete input: a one-row store whose client
returns a qualifying translation leaves the second run's worklist
empty. -/
theorem claim_C1_idempotent_resumability_witness :
    worklist (runTranslateFromId [⟨1, "abcd".toList, none⟩] 1 none
        (fun _ _ => .ok "WXYZ".toList)) 1 none = [] :=
  (claim_C1_idempotent_resumability [⟨1, "abcd".toList, none⟩] 1 none
      (fun _ _ => .ok "WXYZ".toList)).2.2.2 (by decide)

/- ### `ShivPuranSanskritTranslator` (src/newtrans.py lines 223-367) -/

/-- Model of Python `str.replace(a, a + '\n')` for a single character
pattern: each occurrence is replaced by the replacement list. -/
def replaceChar (a : Char) (repl : List Char) (l : List Char) : List Char :=
  (l.map fun c => if c = a then repl else [c]).flatten

/-- The sentence expansion of `translate_chunk` (src/newtrans.py line
258): `content.replace('।', '।\n').replace('॥', '॥\n')`. -/
def expandMarkers (l : List Char) : List Char :=
  replaceChar '॥' ['॥', '\n'] (replaceChar '।' ['।', '\n'] l)

/-- The discovery query of `get_untranslated_chunks` (src/newtrans.py
lines 236-241): `chunk_id >= start_from`, `english_translation IS NULL`,
ordered by `chunk_id`. -/
def ntGetUntranslated (store : List Row) (start_from : Nat) : List Row :=
  List.insertionSort (fun a b => a.chunk_id ≤ b.chunk_id)
    (store.filter fun r =>
      decide (start_from ≤ r.chunk_id) && r.translation.isNone)

/-- The sentence loop of `translate_chunk`'s long branch (src/newtrans.py
lines 261-266): each stripped sentence longer than 5 characters is sent
to the model (`m` is the model-call oracle, `none` = the model's caught
exception path returning `None`), and truthy results are collected. -/
def ntSentencesLoop (m : Nat → Option (List Char)) :
    List (List Char) → Nat → (List (List Char) × Nat)
  | [], k => ([], k)
  | s :: ss, k =>
      let s1 := pyStrip s
      if 5 < s1.length then
        match m k with
        | some t =>
            let rest := ntSentencesLoop m ss (k + 1)
            (if t ≠ [] then t :: rest.1 else rest.1, rest.2)
        | none => ntSentencesLoop m ss (k + 1)
      else ntSentencesLoop m ss k

/-- Model of `translate_chunk` (src/newtrans.py lines 247-270): content
shorter than 5 characters after stripping is skipped (`None`); content
over 800 characters is split at Devanagari sentence enders and the
successful sentence translations are joined with a single space
(possibly yielding the empty string); otherwise one direct model call. -/
def ntTranslateChunk (m : Nat → Option (List Char)) (k : Nat)
    (content0 : List Char) : Option (List Char) × Nat :=
  let content := pyStrip content0
  if content.length < 5 then (none, k)
  else if 800 < content.length then
    let sentences := splitNL (expandMarkers content)
    let r := ntSentencesLoop m sentences k
    (some (joinSpace r.1), r.2)
  else (m k, k + 1)

/-- The chunk loop of `translate_all` (src/newtrans.py lines 305-335):
a truthy translation is written to the store and counted; a falsy one is
skipped.  (The model's `translate` catches its own exceptions and store
updates are modelled as succeeding, so the `failed` counter of the code
stays 0 here.) -/
def ntProcess (m : Nat → Option (List Char)) :
    List Row → List Row → Nat → Nat → List Row × Nat × Nat
  | [], store, translated, k => (store, translated, k)
  | r :: rs, store, translated, k =>
      let tr := ntTranslateChunk m k r.content
      match tr.1 with
      | some t =>
          if t ≠ [] then
            ntProcess m rs (updateStore store r.chunk_id t) (translated + 1) tr.2
          else ntProcess m rs store translated tr.2
      | none => ntProcess m rs store translated tr.2

/-- Abort modes of the run's final reporting: `translate_all` line 345
divides `total_time` by `translated`, and `verify` line 365 divides by
the total row count; Python raises `ZeroDivisionError` when the divisor
is 0. -/
inductive NtError
  | summaryZeroDivision
  | verifyZeroDivision
  deriving DecidableEq

/-- The tally and store-verified counts a completed run reports. -/
structure NtSummary where
  translated : Nat
  failed : Nat
  verifiedTranslated : Nat
  verifiedTotal : Nat
  deriving DecidableEq

/-- Terminal outcome of `translate_all`: the early return when the
worklist is empty (no tally, no verification), or the full summary. -/
inductive NtOutcome
  | alreadyDone
  | finished (s : NtSummary)
  deriving DecidableEq

/-- Model of `verify` (src/newtrans.py lines 349-367): count translated
and total rows; computing the percentage divides by the total. -/
def ntVerify (store : List Row) : Except NtError (Nat × Nat) :=
  let translated := (store.filter fun r => !r.translation.isNone).length
  let total := store.length
  if total = 0 then .error .verifyZeroDivision else .ok (translated, total)

/-- Model of `translate_all` (src/newtrans.py lines 279-347): discover
the worklist, return early if it is empty, process every chunk, then
print the summary — whose average-seconds-per-chunk line divides by the
`translated` counter — and finally verify against the store. -/
def ntTranslateAll (store : List Row) (start_from : Nat)
    (m : Nat → Option (List Char)) : Except NtError NtOutcome :=
  let chunks := ntGetUntranslated store start_from
  if chunks.isEmpty then .ok .alreadyDone
  else
    let out := ntProcess m chunks store 0 0
    let translated := out.2.1
    if translated = 0 then .error .summaryZeroDivision
    else
      match ntVerify out.1 with
      | .error e => .error e
      | .ok (vt, tot) => .ok (.finished ⟨translated, 0, vt, tot⟩)

/-- C9 (code bug): a run of `translate_all` that processes its worklist
to the end with every chunk failing translation (`translated = 0`)
aborts with `ZeroDivisionError` in the final summary before `verify`
ever runs — the final reporting step does abort; and a run over an empty
worklist returns early with no tally or verification at all. -/
theorem claim_C9_run_summary_code_bug :
    ntTranslateAll [⟨1, "abcdefgh".toList, none⟩] 1 (fun _ => none) =
        .error .summaryZeroDivision ∧
    ntTranslateAll [] 1 (fun _ => none) = .ok .alreadyDone := by
  constructor
  · rfl
  · rfl

/- ### C8: oversized-input fragmentation -/

theorem partsLoop_calls (ocl : Nat → ClientOutcome) :
    ∀ (ps : List (List Char)) (k i n : Nat),
      callInputs (partsLoop ocl ps k i n).evs =
        ps.filter fun p => decide (3 ≤ p.length) := by
  intro ps
  induction ps with
  | nil => intro k i n; rfl
  | cons p ps ih =>
      intro k i n
      rw [partsLoop]
      by_cases hp : p.length < 3
      · rw [if_pos hp]
        have hd : ¬ 3 ≤ p.length := by omega
        simp only [List.filter_cons, decide_eq_true_eq, hd, if_false]
        exact ih k (i + 1) n
      · rw [if_neg hp]
        have hd : 3 ≤ p.length := by omega
        simp only [List.filter_cons, decide_eq_true_eq, hd, if_true]
        cases h : ocl k with
        | ok t =>
            by_cases hw : i < n - 1 <;> simp [hw, ih (k + 1) (i + 1) n]
        | errRateLimited => simpa using ih (k + 1) (i + 1) n
        | errConnection => simpa using ih (k + 1) (i + 1) n
        | errOther => simpa using ih (k + 1) (i + 1) n

theorem partsLoop_qual (ocl : Nat → ClientOutcome) :
    ∀ (ps : List (List Char)) (k i n : Nat),
      ∀ u ∈ (partsLoop ocl ps k i n).translations,
        ∃ k2 r, ocl k2 = .ok r ∧ u = pyStrip r := by
  intro ps
  induction ps with
  | nil => intro k i n u hu; simp [partsLoop] at hu
  | cons p ps ih =>
      intro k i n u hu
      rw [partsLoop] at hu
      by_cases hp : p.length < 3
      · rw [if_pos hp] at hu
        exact ih k (i + 1) n u hu
      · rw [if_neg hp] at hu
        cases h : ocl k with
        | ok t =>
            rw [h] at hu
            simp only at hu
            rcases List.mem_append.mp hu with hkeep | hrest
            · by_cases hc : t ≠ [] ∧ pyStrip t ≠ [] ∧ t ≠ p
              · rw [if_pos hc] at hkeep
                have : u = pyStrip t := by simpa using hkeep
                exact ⟨k, t, h, this⟩
              · rw [if_neg hc] at hkeep
                simp at hkeep
            · exact ih (k + 1) (i + 1) n u hrest
        | errRateLimited => rw [h] at hu; exact ih (k + 1) (i + 1) n u hu
        | errConnection => rw [h] at hu; exact ih (k + 1) (i + 1) n u hu
        | errOther => rw [h] at hu; exact ih (k + 1) (i + 1) n u hu

theorem partsLoop_noqual (ocl : Nat → ClientOutcome)
    (hnone : ∀ k2 r, ocl k2 = .ok r → pyStrip r = []) :
    ∀ (ps : List (List Char)) (k i n : Nat),
      (partsLoop ocl ps k i n).translations = [] := by
  intro ps
  induction ps with
  | nil => intro k i n; rfl
  | cons p ps ih =>
      intro k i n
      rw [partsLoop]
      by_cases hp : p.length < 3
      · rw [if_pos hp]; exact ih k (i + 1) n
      · rw [if_neg hp]
        cases h : ocl k with
        | ok t =>
            have ht := hnone k t h
            simp only
            rw [if_neg (by simp [ht])]
            simpa using ih (k + 1) (i + 1) n
        | errRateLimited => exact ih (k + 1) (i + 1) n
        | errConnection => exact ih (k + 1) (i + 1) n
        | errOther => exact ih (k + 1) (i + 1) n

theorem splitSentGo_spec (text : List Char) :
    ∀ (l cur : List Char), (cur ++ l) <:+ text →
      ∀ p ∈ splitSentGo l cur,
        ∃ raw, p = pyStrip raw ∧ raw <:+: text ∧
          (((∃ c, raw.getLast? = some c ∧ isMarker c = true) ∧
              100 < raw.length) ∨ raw <:+ text) := by
  intro l
  induction l with
  | nil =>
      intro cur hsuf p hp
      rw [splitSentGo] at hp
      by_cases hc : pyStrip cur = []
      · rw [if_pos hc] at hp; simp at hp
      · rw [if_neg hc] at hp
        have hpc : p = pyStrip cur := by simpa using hp
        rw [List.append_nil] at hsuf
        exact ⟨cur, hpc, hsuf.isInfix, Or.inr hsuf⟩
  | cons c cs ih =>
      intro cur hsuf p hp
      have hassoc : cur ++ c :: cs = (cur ++ [c]) ++ cs := by simp
      rw [splitSentGo] at hp
      by_cases hb : isMarker c ∧ 100 < (cur ++ [c]).length
      · rw [if_pos hb] at hp
        rcases List.mem_cons.mp hp with hphead | hptail
        · refine ⟨cur ++ [c], hphead, ?_, ?_⟩
          · have hpre : (cur ++ [c]) <+: ((cur ++ [c]) ++ cs) := ⟨cs, rfl⟩
            have : ((cur ++ [c]) ++ cs) <:+ text := by rwa [← hassoc]
            exact hpre.isInfix.trans this.isInfix
          · exact Or.inl ⟨⟨c, by simp, hb.1⟩, hb.2⟩
        · apply ih [] ?_ p hptail
          have h1 : cs <:+ ((cur ++ [c]) ++ cs) := ⟨cur ++ [c], rfl⟩
          have h2 : ((cur ++ [c]) ++ cs) <:+ text := by rwa [← hassoc]
          simpa using h1.trans h2
      · rw [if_neg hb] at hp
        apply ih (cur ++ [c]) ?_ p hp
        rwa [← hassoc]

theorem taGo_calls_long (ocl : Nat → ClientOutcome) (text : List Char)
    (h4 : 4000 < text.length) :
    ∀ (rem attempt k : Nat), 1 ≤ rem →
      ∃ m, 1 ≤ m ∧ m ≤ rem ∧
        callInputs (taGo ocl text rem attempt k).evs =
          (List.replicate m ((splitSentences text).filter fun p =>
            decide (3 ≤ p.length))).flatten := by
  intro rem
  induction rem with
  | zero => intro attempt k h; omega
  | succ rem ih =>
      intro attempt k _
      rw [taGo, if_pos h4]
      have hcalls := partsLoop_calls ocl (splitSentences text) k 0
        (splitSentences text).length
      by_cases ht : (partsLoop ocl (splitSentences text) k 0
          (splitSentences text).length).translations ≠ []
      · rw [if_pos ht]
        by_cases hq : joinSpace (partsLoop ocl (splitSentences text) k 0
            (splitSentences text).length).translations ≠ [] ∧
            10 < (joinSpace (partsLoop ocl (splitSentences text) k 0
              (splitSentences text).length).translations).length
        · rw [if_pos hq]
          exact ⟨1, le_refl 1, by omega, by simp [hcalls]⟩
        · rw [if_neg hq]
          rcases Nat.eq_zero_or_pos rem with hrem0 | hrempos
          · subst hrem0
            exact ⟨1, le_refl 1, by omega, by simp [taGo, hcalls]⟩
          · obtain ⟨m, hm1, hm2, hm3⟩ := ih (attempt + 1)
              (partsLoop ocl (splitSentences text) k 0
                (splitSentences text).length).k hrempos
            refine ⟨m + 1, by omega, by omega, ?_⟩
            simp [hcalls, hm3, List.replicate_succ]
      · rw [if_neg ht]
        rcases Nat.eq_zero_or_pos rem with hrem0 | hrempos
        · subst hrem0
          exact ⟨1, le_refl 1, by omega, by simp [taGo, hcalls]⟩
        · obtain ⟨m, hm1, hm2, hm3⟩ := ih (attempt + 1)
            (partsLoop ocl (splitSentences text) k 0
              (splitSentences text).length).k hrempos
          refine ⟨m + 1, by omega, by omega, ?_⟩
          simp [hcalls, hm3, List.replicate_succ]

theorem taGo_res_long (ocl : Nat → ClientOutcome) (text : List Char)
    (h4 : 4000 < text.length) :
    ∀ (rem attempt k : Nat) (t : List Char),
      (taGo ocl text rem attempt k).res = some t →
      ∃ ts, ts ≠ [] ∧ t = joinSpace ts ∧ 10 < t.length ∧
        ∀ u ∈ ts, ∃ k2 r, ocl k2 = .ok r ∧ u = pyStrip r := by
  intro rem
  induction rem with
  | zero => intro attempt k t h; simp [taGo] at h
  | succ rem ih =>
      intro attempt k t h
      rw [taGo, if_pos h4] at h
      by_cases ht : (partsLoop ocl (splitSentences text) k 0
          (splitSentences text).length).translations ≠ []
      · rw [if_pos ht] at h
        by_cases hq : joinSpace (partsLoop ocl (splitSentences text) k 0
            (splitSentences text).length).translations ≠ [] ∧
            10 < (joinSpace (partsLoop ocl (splitSentences text) k 0
              (splitSentences text).length).translations).length
        · rw [if_pos hq] at h
          have heq : joinSpace (partsLoop ocl (splitSentences text) k 0
              (splitSentences text).length).translations = t := by
            simpa using h
          refine ⟨(partsLoop ocl (splitSentences text) k 0
              (splitSentences text).length).translations, ht, heq.symm, ?_, ?_⟩
          · rw [← heq]; exact hq.2
          · exact partsLoop_qual ocl (splitSentences text) k 0
              (splitSentences text).length
        · rw [if_neg hq] at h
          exact ih (attempt + 1) _ t h
      · rw [if_neg ht] at h
        exact ih (attempt + 1) _ t h

theorem taGo_none_long (ocl : Nat → ClientOutcome) (text : List Char)
    (h4 : 4000 < text.length)
    (hnone : ∀ k2 r, ocl k2 = .ok r → pyStrip r = []) :
    ∀ (rem attempt k : Nat), (taGo ocl text rem attempt k).res = none := by
  intro rem
  induction rem with
  | zero => intro attempt k; rfl
  | succ rem ih =>
      intro attempt k
      rw [taGo, if_pos h4]
      have hT := partsLoop_noqual ocl hnone (splitSentences text) k 0
        (splitSentences text).length
      rw [if_neg (by simp [hT])]
      exact ih (attempt + 1) _

/-- C8: for text over the 4000-character splitting threshold, the text is
decomposed at Devanagari full stops and newline into stripped contiguous
fragments whose boundaries respect the 100-character floor (the trailing
fragment excepted); each fragment of length at least 3 is submitted to
the client — once per retry attempt, within the same bounded retry
policy, and the whole text is never submitted directly; any returned
translation is the single-space join of a non-empty list of stripped
client responses (subject to the >10 length quality gate); and if no
client response qualifies, the result is `None` and the orchestrator
writes nothing for the chunk. -/
theorem claim_C8_oversized_fragmentation (text : List Char) (cid : Nat)
    (ocl : Nat → ClientOutcome) (h0 : pyStrip text = text)
    (h4 : 4000 < text.length) (hnum : numericish text = false) :
    (∀ p ∈ splitSentences text, ∃ raw, p = pyStrip raw ∧ raw <:+: text ∧
      (((∃ c, raw.getLast? = some c ∧ isMarker c = true) ∧
          100 < raw.length) ∨ raw <:+ text)) ∧
    (∃ m, 1 ≤ m ∧ m ≤ maxAttempts ∧
      callInputs (translateAccurately text cid ocl).evs =
        (List.replicate m ((splitSentences text).filter fun p =>
          decide (3 ≤ p.length))).flatten) ∧
    (∀ t, (translateAccurately text cid ocl).res = some t →
      ∃ ts, ts ≠ [] ∧ t = joinSpace ts ∧ 10 < t.length ∧
        ∀ u ∈ ts, ∃ k2 r, ocl k2 = .ok r ∧ u = pyStrip r) ∧
    ((∀ k2 r, ocl k2 = .ok r → pyStrip r = []) →
      (translateAccurately text cid ocl).res = none ∧
      processChunkWrite cid text ocl = none) := by
  have hta : translateAccurately text cid ocl = taGo ocl text maxAttempts 0 0 := by
    rw [translateAccurately]
    simp only [h0]
    rw [if_neg (by omega), if_neg (by simp [hnum])]
  refine ⟨?_, ?_, ?_, ?_⟩
  · intro p hp
    exact splitSentGo_spec text text [] (by simp) p hp
  · rw [hta]
    exact taGo_calls_long ocl text h4 maxAttempts 0 0 (by decide)
  · intro t h
    rw [hta] at h
    exact taGo_res_long ocl text h4 maxAttempts 0 0 t h
  · intro hnone
    constructor
    · rw [hta]
      exact taGo_none_long ocl text h4 hnone maxAttempts 0 0
    · rw [processChunkWrite]
      have hne : pyStrip text ≠ [] := by
        rw [h0]; intro hnil; rw [hnil] at h4; simp at h4
      rw [if_neg hne]
      simp only [h0]
      rw [if_neg (by omega), hta]
      rw [taGo_none_long ocl text h4 hnone maxAttempts 0 0]
      rfl

/-- Witness for C8 at a concrete input: a 4001-character text with a
client that always answers with the empty string yields no translation
and no write. -/
theorem trimmedEnds_replicate {c : Char} (hc : isSpaceB c = false) (n : Nat) :
    TrimmedEnds (List.replicate n c) := by
  cases n with
  | zero => exact Or.inl rfl
  | succ n =>
      right
      constructor
      · exact ⟨c, by simp [List.replicate_succ], hc⟩
      · refine ⟨c, ?_, hc⟩
        rw [List.replicate_succ']
        exact List.getLast?_concat _

theorem filter_replicate_of_pos {p : Char → Bool} {c : Char}
    (hp : p c = true) (n : Nat) :
    (List.replicate n c).filter p = List.replicate n c := by
  induction n with
  | zero => rfl
  | succ n ih => simp [List.replicate_succ, hp, ih]

theorem numericish_replicate_nondigit {c : Char}
    (hc1 : (!(c == ' ' || c == '.' || c == ',')) = true)
    (hc2 : c.isDigit = false) (n : Nat) (hn : 0 < n) :
    numericish (List.replicate n c) = false := by
  have hu := filter_replicate_of_pos
    (p := fun x => !(x == ' ' || x == '.' || x == ',')) (c := c) hc1 n
  rw [numericish]
  simp only [hu]
  have hall : (List.replicate n c).all Char.isDigit = false := by
    cases hall : (List.replicate n c).all Char.isDigit with
    | false => rfl
    | true =>
        exfalso
        have := List.all_eq_true.mp hall c
          (List.mem_replicate.mpr ⟨by omega, rfl⟩)
        rw [hc2] at this
        exact Bool.false_ne_true this
  rw [hall]
  exact Bool.and_false _

/-- Witness for C8 at a concrete input: a 4001-character text with a
client that always answers with the empty string yields no translation
and no write. -/
theorem claim_C8_oversized_fragmentation_witness :
    (translateAccurately (List.replicate 4001 'क') 0 (fun _ => .ok [])).res =
        none ∧
    processChunkWrite 0 (List.replicate 4001 'क') (fun _ => .ok []) = none :=
  (claim_C8_oversized_fragmentation (List.replicate 4001 'क') 0
      (fun _ => .ok [])
      (pyStrip_eq_self (trimmedEnds_replicate (by decide) 4001))
      (by rw [List.length_replicate]; omega)
      (numericish_replicate_nondigit (by decide) (by decide) 4001
        (by decide))).2.2.2
    (fun k2 r h => by
      have hr : r = [] := by injection h with h2; exact h2.symm
      rw [hr]; rfl)

end BooksLLM
